import Mathlib

/-!
A shallow embedding of the network module of `dlcutils` (`src/networks.py`)
and proofs about it.

Modelling conventions:
* Python ints are `Nat` (all ids here are nonnegative), Python floats are `ℚ`.
* Python exceptions are modelled with `Except Err`.  The deliberate
  `raise ValueError(msg)` statements of the source are mapped to the two
  error kinds of the specification (`invalidParameter` / `invalidState`,
  the message string is kept verbatim); exceptions raised *by the Python
  runtime or library* (KeyError on a dict lookup, IndexError from
  `rd.choice` on an empty list, ValueError from `list.remove` /
  `rd.sample`) get their own constructors, since several claims are about
  the distinction between the two groups.
* Randomness is modelled by explicit oracles: every call site of the
  `random` module takes its outcome from an oracle argument (an index for
  a uniform choice, a rational in `[0, 1)` for a weighted draw).
* Python dicts keyed by node ids are modelled by association lists
  (`lookupA` / `setA`, which mirror lookup and update-of-existing-key,
  preserving insertion order) or, where only point updates of
  always-present keys occur, by total functions `ℕ → _`.
-/

namespace DLC

/-- Outcomes of a failing operation.  `invalidParameter` and `invalidState`
are the two error kinds of the specification (carrying the message of the
`raise ValueError(...)` in the source); the `py*` constructors are
exceptions coming from the Python runtime / standard library, i.e. crashes
that are not a defined error of either kind. -/
inductive Err
  | invalidParameter (msg : String)
  | invalidState (msg : String)
  | pyKeyError
  | pyIndexError
  | pyValueError
  | pyZeroDivisionError
  deriving DecidableEq

/-- Is the error a defined `InvalidState`-kind error? -/
def Err.isStateErr : Err → Bool
  | .invalidState _ => true
  | _ => false

/-- Is the error a defined `InvalidParameter`-kind error? -/
def Err.isParamErr : Err → Bool
  | .invalidParameter _ => true
  | _ => false

/-- `list.remove(a)`: removes the first occurrence of `a`, raising
`ValueError` when `a` is not present. -/
def pyRemove {α : Type} [DecidableEq α] (a : α) (l : List α) : Except Err (List α) :=
  if a ∈ l then .ok (l.erase a) else .error .pyValueError

/-- Lookup in an association list (first matching key, as in a Python dict
whose keys are unique). -/
def lookupA {α : Type} (key : ℕ) : List (ℕ × α) → Option α
  | [] => none
  | (k, v) :: rest => if key = k then some v else lookupA key rest

/-- Update the first entry with the given key in an association list
(`d[key] = v` for a key that is present). -/
def setA {α : Type} (key : ℕ) (v : α) : List (ℕ × α) → List (ℕ × α)
  | [] => []
  | (k, w) :: rest => if key = k then (k, v) :: rest else (k, w) :: setA key v rest

/-- Sum of the values of an association list (`sum(d.values())`). -/
def wsum (l : List (ℕ × ℚ)) : ℚ := (l.map Prod.snd).sum

/-- `rd.choices(keys, weights)[0]`: draw one key with probability
proportional to its weight.  `u` is the oracle value, uniform on
`[0, total)`; the draw walks the cumulative weights exactly as the
`bisect`-based implementation does.  `none` corresponds to the
`ValueError` raised when the total of the weights is not positive. -/
def wchoice (u : ℚ) : List (ℕ × ℚ) → Option ℕ
  | [] => none
  | (k, w) :: rest => if u < w then some k else wchoice (u - w) rest

/-! ## `Network` (the WeightedDirectedGraph) -/

/-- State of `networks.Network`: a fully connected weighted directed graph
plus the walk state.  `edges` is the dict of dicts (node ↦ (neighbor ↦
weight)); the `Option` fields start out as Python `None`. -/
structure Network where
  n : ℕ
  node_list : List ℕ
  edge_list : List (ℕ × ℕ)
  edges : List (ℕ × List (ℕ × ℚ))
  focus_node : Option ℕ
  next_focus : Option ℕ
  focus_edge : Option (ℕ × ℕ)

/-- `Network.__init__` with `_make_nodes` and `_make_edges` inlined:
nodes `1..n`, the full product as edge list, and every weight `1/n`. -/
def Network.init (n : ℕ) : Network :=
  let node_list := List.range' 1 n
  { n := n
    node_list := node_list
    edge_list := node_list.flatMap (fun a => node_list.map (fun b => (a, b)))
    edges := node_list.map (fun node => (node, node_list.map (fun nbr => (nbr, (1 : ℚ) / n))))
    focus_node := none
    next_focus := none
    focus_edge := none }

/-- The argument of `Network.set_focus`: absent, the string `"next"`, or an
explicit node id. -/
inductive FocusArg
  | noArg
  | next
  | node (idt : ℕ)

/-- The `rd.choice(self.node_list)` branch of `set_focus`: `rd.choice`
raises `IndexError` on an empty list, otherwise returns the element at the
oracle-chosen index. -/
def Network.pickFocus (u : ℕ) (net : Network) : Except Err Network :=
  if net.node_list.length = 0 then .error .pyIndexError
  else
    .ok { net with
      focus_node := some (net.node_list.getD (u % net.node_list.length) 0)
      next_focus := none
      focus_edge := none }

/-- `Network.set_focus(node=None)`.  Note that the source tests `if not
node:` — which is also true for the id `0` (a falsy int), so id `0` takes
the random branch instead of the membership check. -/
def Network.set_focus (u : ℕ) (arg : FocusArg) (net : Network) : Except Err Network :=
  match arg with
  | .noArg | .node 0 => net.pickFocus u
  | .next =>
    .ok { net with focus_node := net.next_focus, next_focus := none, focus_edge := none }
  | .node idt =>
    if idt ∈ net.node_list then
      .ok { net with focus_node := some idt, next_focus := none, focus_edge := none }
    else
      .error (.invalidParameter "The specified node is not in the network.")

/-- `Network.select_focus_edge`: `self.edges[self.focus_node]` raises
`KeyError` when `focus_node` is `None` (or not a key); then one
out-neighbor is drawn weighted by the edge weights. -/
def Network.select_focus_edge (u : ℚ) (net : Network) : Except Err Network :=
  match net.focus_node with
  | none => .error .pyKeyError
  | some f =>
    match lookupA f net.edges with
    | none => .error .pyKeyError
    | some ego =>
      match wchoice u ego with
      | none => .error .pyValueError
      | some nf => .ok { net with next_focus := some nf, focus_edge := some (f, nf) }

/-- `Network.update_focus_weights`: add `1/n` to the weight of
`(focus_node, next_focus)`, then divide every out-weight of the focus node
by the new total.  Dict lookups of `None` raise `KeyError`; the divisions
(`1/self.n`, `w /= total`) raise `ZeroDivisionError` when the divisor is
zero (the per-neighbor division only runs when `ego` has a key, which is
guaranteed as soon as the `lookupA nf ego` above succeeded). -/
def Network.update_focus_weights (net : Network) : Except Err Network :=
  match net.focus_node with
  | none => .error .pyKeyError
  | some f =>
    match lookupA f net.edges with
    | none => .error .pyKeyError
    | some ego =>
      match net.next_focus with
      | none => .error .pyKeyError
      | some nf =>
        match lookupA nf ego with
        | none => .error .pyKeyError
        | some w =>
          if net.n = 0 then .error .pyZeroDivisionError
          else
            let ego1 := setA nf (w + 1 / net.n) ego
            let total := wsum ego1
            if total = 0 then .error .pyZeroDivisionError
            else
              .ok { net with
                edges := setA f (ego1.map (fun kv => (kv.1, kv.2 / total))) net.edges }

/-- `Network.step`: select a focus edge, then `set_focus("next")` (the
source also returns the new focus node; the state is what matters here). -/
def Network.step (u : ℚ) (net : Network) : Except Err Network :=
  match net.select_focus_edge u with
  | .error e => .error e
  | .ok net1 => net1.set_focus 0 .next

/-- The states a `Network(n)` can reach through any sequence of
(successful) method calls: `set_focus`, `select_focus_edge`, `step`,
`update_focus_weights`.  (`select_focus_edge` must be included: `step`
ends in `set_focus("next")`, which clears `next_focus`, so the states on
which `update_focus_weights` succeeds are reached by a bare
`select_focus_edge` call.) -/
inductive Reachable (n : ℕ) : Network → Prop
  | init : Reachable n (Network.init n)
  | set_focus (u : ℕ) (arg : FocusArg) (net net' : Network) :
      Reachable n net → net.set_focus u arg = .ok net' → Reachable n net'
  | select (u : ℚ) (net net' : Network) :
      Reachable n net → net.select_focus_edge u = .ok net' → Reachable n net'
  | step (u : ℚ) (net net' : Network) :
      Reachable n net → net.step u = .ok net' → Reachable n net'
  | update (net net' : Network) :
      Reachable n net → net.update_focus_weights = .ok net' → Reachable n net'

/-! ## `ERNetwork` (the RandomGraph) -/

/-- Python truthiness of an optional float argument: `None` and `0` are
falsy. -/
def truthyQ : Option ℚ → Bool
  | none => false
  | some x => x != 0

/-- Python truthiness of an optional int argument: `None` and `0` are
falsy. -/
def truthyN : Option ℕ → Bool
  | none => false
  | some x => x != 0

/-- `it.combinations(l, 2)` in the order Python produces it. -/
def combos2 : List ℕ → List (ℕ × ℕ)
  | [] => []
  | x :: xs => xs.map (fun y => (x, y)) ++ combos2 xs

/-- State of `networks.ERNetwork`.  `edges` starts out as `None`. -/
structure ERNetwork where
  n : ℕ
  p : Option ℚ
  m : Option ℕ
  nodes : List ℕ
  edges : Option (List (ℕ × ℕ))
  poss_edges : List (ℕ × ℕ)

/-- `ERNetwork.connect_p`: include every possible pair independently with
probability `p` (per-pair Bernoulli draw, oracle `gP pair ∈ [0, 1)`).
`np.random.choice` validates the probability vector `[1-p, p]` and raises
`ValueError` when either entry is negative, i.e. when `p` lies outside
`[0, 1]`. -/
def ERNetwork.connect_p (gP : ℕ × ℕ → ℚ) (st : ERNetwork) : Except Err ERNetwork :=
  if st.p.getD 0 < 0 ∨ st.p.getD 0 > 1 then .error .pyValueError
  else .ok { st with edges := some (st.poss_edges.filter (fun e => gP e < st.p.getD 0)) }

/-- `ERNetwork.connect_m`: `rd.choices(poss_edges, k=m)` — `m` draws *with*
replacement; drawing from an empty population raises `IndexError`. -/
def ERNetwork.connect_m (gM : ℕ → ℕ) (st : ERNetwork) : Except Err ERNetwork :=
  let mval := st.m.getD 0
  if 0 < mval ∧ st.poss_edges.length = 0 then .error .pyIndexError
  else
    .ok { st with
      edges := some ((List.range mval).map
        (fun i => st.poss_edges.getD (gM i % st.poss_edges.length) (0, 0))) }

/-- `ERNetwork.__init__`: the guard is `if (p and m) or (not p and not m)`,
i.e. Python truthiness on both optional arguments; then `if self.p:` runs
`connect_p` and `if self.m:` runs `connect_m`. -/
def ERNetwork.init (gP : ℕ × ℕ → ℚ) (gM : ℕ → ℕ) (n : ℕ) (p : Option ℚ) (m : Option ℕ) :
    Except Err ERNetwork :=
  if (truthyQ p && truthyN m) || (!truthyQ p && !truthyN m) then
    .error (.invalidParameter "Please specify either p xor m.")
  else
    let nodes := List.range' 1 n
    let st : ERNetwork :=
      { n := n, p := p, m := m, nodes := nodes, edges := none, poss_edges := combos2 nodes }
    match (if truthyQ p then st.connect_p gP else .ok st) with
    | .error e => .error e
    | .ok st1 => if truthyN m then st1.connect_m gM else .ok st1

/-! ## `BANetwork` (the PreferentialAttachmentGraph) -/

/-- State of `networks.BANetwork`.  The degree dict is modelled as a total
function (every key read or written by the source is initialized first in
every flow below). -/
structure BANetwork where
  n : ℕ
  k : ℕ
  size : ℕ
  nodes : List ℕ
  degrees : ℕ → ℕ
  edges : List (ℕ × ℕ)

/-- `d[a] += 1` on a degree map. -/
def bump (d : ℕ → ℕ) (a : ℕ) : ℕ → ℕ := fun x => if x = a then d x + 1 else d x

/-- The recursive worker of `rd.sample`: `j` draws without replacement;
draw `t` removes the element at the oracle index `pick t % pool.length`
from the pool.  (Positions are sampled without replacement; equal *values*
at distinct positions can still be drawn more than once.) -/
def rdSampleGo (pick : ℕ → ℕ) : ℕ → ℕ → List ℕ → List ℕ
  | _, 0, _ => []
  | t, j + 1, pool =>
    let i := pick t % pool.length
    pool.getD i 0 :: rdSampleGo pick (t + 1) j (pool.eraseIdx i)

/-- `rd.sample(pool, j)`: raises `ValueError` when the sample is larger
than the population. -/
def rdSample (pick : ℕ → ℕ) (pool : List ℕ) (j : ℕ) : Except Err (List ℕ) :=
  if j ≤ pool.length then .ok (rdSampleGo pick 0 j pool) else .error .pyValueError

/-- `BANetwork.make_edges`: record an edge `(node, neighbor)` for every
target and increment both endpoint degrees. -/
def BANetwork.make_edges (node : ℕ) (targets : List ℕ) (net : BANetwork) : BANetwork :=
  targets.foldl
    (fun st nbr =>
      { st with
        edges := st.edges ++ [(node, nbr)]
        degrees := bump (bump st.degrees node) nbr })
    net

/-- `BANetwork.add_first_node`: one special attachment connecting the new
node `k+1` to all `k` seed nodes (targets are copied before the new node is
appended). -/
def BANetwork.add_first_node (net : BANetwork) : Except Err BANetwork :=
  if net.size ≠ net.k then .error (.invalidState "The network is already initialized.")
  else
    let targets := net.nodes
    let node := net.size + 1
    .ok (BANetwork.make_edges node targets
      { net with
        size := node
        nodes := net.nodes ++ [node]
        degrees := fun x => if x = node then 0 else net.degrees x })

/-- `BANetwork.add_node`: sample `k` targets (without positional
replacement) from the flattening of the edge list — the multiset of edge
endpoints, each node occurring once per endpoint it owns — and connect the
new node to them.  The oracle slice `g node` supplies the draws of this
call. -/
def BANetwork.add_node (g : ℕ → ℕ → ℕ) (net : BANetwork) : Except Err BANetwork :=
  if net.size = net.k then .error (.invalidState "Network not yet initialized.")
  else
    let node := net.size + 1
    let candidates := net.edges.flatMap (fun e => [e.1, e.2])
    match rdSample (g node) candidates net.k with
    | .error e => .error e
    | .ok targets =>
      .ok (BANetwork.make_edges node targets
        { net with
          size := node
          nodes := net.nodes ++ [node]
          degrees := fun x => if x = node then 0 else net.degrees x })

/-- `BANetwork.make_network`: `while self.size < self.n: self.add_node()`.
Each successful `add_node` increases `size` by exactly one, so the loop
runs exactly `n - size` times; the fuel argument is initialized to that
count by `BANetwork.init` and can therefore never run out before the loop
condition turns false. -/
def BANetwork.make_network (g : ℕ → ℕ → ℕ) : ℕ → BANetwork → Except Err BANetwork
  | 0, net => .ok net
  | fuel + 1, net =>
    if net.size < net.n then
      match net.add_node g with
      | .error e => .error e
      | .ok net2 => BANetwork.make_network g fuel net2
    else .ok net

/-- `BANetwork.__init__`: seed nodes `1..k` with degree `0` and no recorded
edges, then the first-node attachment, then grow until `n` nodes. -/
def BANetwork.init (g : ℕ → ℕ → ℕ) (n k : ℕ) : Except Err BANetwork :=
  let net0 : BANetwork :=
    { n := n, k := k, size := k, nodes := List.range' 1 k, degrees := fun _ => 0, edges := [] }
  match net0.add_first_node with
  | .error e => .error e
  | .ok net1 => BANetwork.make_network g (net1.n - net1.size) net1

/-! ## `WSNetwork` (the SmallWorldGraph) -/

/-- State of `networks.WSNetwork`.  The neighbor dict is modelled as a
total function (only keys in `nodes` are ever read or written). -/
structure WSNetwork where
  n : ℕ
  k : ℕ
  b : ℚ
  nodes : List ℕ
  edges : List (ℕ × ℕ)
  neighbors : ℕ → List ℕ

/-- The empty graph the constructor builds before `make_ring`. -/
def wsBase (n k : ℕ) (b : ℚ) : WSNetwork :=
  { n := n, k := k, b := b, nodes := List.range' 1 n, edges := [], neighbors := fun _ => [] }

/-- `rd.choices([True, False], weights=[b, 1-b])[0]`: the cumulative
weights are `[b, 1]`, the oracle value `u` is uniform on `[0, 1)`, and the
draw is `True` exactly when `u < b`. -/
def pyCoin (b u : ℚ) : Bool := u < b

/-- The body of the `for node in self.nodes` loop of `make_ring`: slice the
`k+1` window of the padded list starting at `node - 1`, `remove(node)` from
it (`ValueError` if absent — it never is for valid parameters), and record
the `(node, nbr)` pairs. -/
def ringStep (padded : List ℕ) (k : ℕ) (st : WSNetwork) (node : ℕ) : Except Err WSNetwork := do
  let nbrs ← pyRemove node ((padded.drop (node - 1)).take (k + 1))
  .ok { st with
    edges := st.edges ++ nbrs.map (fun nbr => (node, nbr))
    neighbors := fun x => if x = node then nbrs else st.neighbors x }

/-- `WSNetwork.make_ring`.  The paddings are Python slices:
`nodes[-per_side:]` — which is the *whole* list when `per_side = 0`, since
`-0 == 0` — and `nodes[:per_side]`. -/
def WSNetwork.make_ring (net : WSNetwork) : Except Err WSNetwork :=
  let per_side := net.k / 2
  let l_padding :=
    if per_side = 0 then net.nodes else net.nodes.drop (net.nodes.length - per_side)
  let r_padding := net.nodes.take per_side
  let padded := l_padding ++ net.nodes ++ r_padding
  net.nodes.foldlM (ringStep padded net.k) net

/-- `WSNetwork.find_new_neighbor`: pick a uniformly random node that is not
already a neighbor of `i` and not `i` itself (`rd.choice` raises
`IndexError` when no such node exists), then replace `j` by it in both the
neighbor list of `i` and the edge list. -/
def WSNetwork.find_new_neighbor (uC : ℕ) (i j : ℕ) (st : WSNetwork) : Except Err WSNetwork := do
  let options := st.nodes.filter (fun x => !((st.neighbors i ++ [i]).contains x))
  if options.length = 0 then .error .pyIndexError
  else
    let newN := options.getD (uC % options.length) 0
    let nbrs1 ← pyRemove j (st.neighbors i)
    let st1 :=
      { st with neighbors := fun x => if x = i then nbrs1 ++ [newN] else st.neighbors x }
    let edges1 ← pyRemove (i, j) st1.edges
    .ok { st1 with edges := edges1 ++ [(i, newN)] }

/-- One candidate `j` of the inner loop of `rewire`: flip the `b`-weighted
coin (oracle `gB node j`) and on success rewire `(node, j)` (choice oracle
`gC node j`). -/
def rewireInner (gB : ℕ → ℕ → ℚ) (gC : ℕ → ℕ → ℕ) (b : ℚ) (node : ℕ) (st : WSNetwork)
    (j : ℕ) : Except Err WSNetwork :=
  if pyCoin b (gB node j) then st.find_new_neighbor (gC node j) node j else .ok st

/-- The body of the `for node in self.nodes` loop of `rewire`: visit the
"forward" ring neighbors `j > node` of a copy of the current neighbor
list, then sort the (possibly updated) neighbor list of `node` in place. -/
def rewireNode (gB : ℕ → ℕ → ℚ) (gC : ℕ → ℕ → ℕ) (b : ℚ) (st : WSNetwork) (node : ℕ) :
    Except Err WSNetwork := do
  let neighbors := st.neighbors node
  let candidates := neighbors.filter (fun nbr => node < nbr)
  let st2 ← candidates.foldlM (rewireInner gB gC b node) st
  .ok { st2 with
    neighbors := fun x =>
      if x = node then (st2.neighbors node).mergeSort (fun a c => a ≤ c) else st2.neighbors x }

/-- `WSNetwork.rewire`: the per-node loop, then
`self.edges = sorted(self.edges, key=lambda edge: edge[0])` — a stable
sort by the from-node. -/
def WSNetwork.rewire (gB : ℕ → ℕ → ℚ) (gC : ℕ → ℕ → ℕ) (st : WSNetwork) :
    Except Err WSNetwork := do
  let st2 ← st.nodes.foldlM (rewireNode gB gC st.b) st
  .ok { st2 with edges := st2.edges.mergeSort (fun a c => a.1 ≤ c.1) }

/-- `WSNetwork.__init__`: parameter validation (`k` even, `b ∈ [0, 1]`,
`n > k`), then the ring lattice, then the rewiring pass. -/
def WSNetwork.init (gB : ℕ → ℕ → ℚ) (gC : ℕ → ℕ → ℕ) (n k : ℕ) (b : ℚ) :
    Except Err WSNetwork :=
  if k % 2 ≠ 0 then .error (.invalidParameter "k must be an even integer.")
  else if b < 0 ∨ b > 1 then
    .error (.invalidParameter "b must be between 0 and 1 (inclusive).")
  else if n ≤ k then .error (.invalidParameter "n must be greater than k.")
  else
    match (wsBase n k b).make_ring with
    | .error e => .error e
    | .ok st => st.rewire gB gC

/-- The padded node list that `make_ring` slices (for the initial state
`wsBase n k b`): `l_padding + nodes + r_padding`. -/
def ringPadded (n k : ℕ) : List ℕ :=
  (if k / 2 = 0 then List.range' 1 n
   else (List.range' 1 n).drop ((List.range' 1 n).length - k / 2)) ++
    List.range' 1 n ++ (List.range' 1 n).take (k / 2)

/-- The ring-lattice neighbor list of `node`: the `k + 1` window of the
padded list starting at `node - 1`, with `node` itself removed. -/
def ringNbrs (n k node : ℕ) : List ℕ :=
  (((ringPadded n k).drop (node - 1)).take (k + 1)).erase node

/-! ## Concrete instances used by witnesses -/

/-- An index oracle that picks position `i` on the `i`-th draw. -/
def gIdx : ℕ → ℕ → ℕ := fun _ i => i

/-- A coin oracle with value `0` everywhere. -/
def gZeroQ : ℕ → ℕ → ℚ := fun _ _ => 0

/-- A choice oracle that always picks index `0`. -/
def gZeroN : ℕ → ℕ → ℕ := fun _ _ => 0

/-- The seed state of `BANetwork(4, 2)`. -/
def baSeed42 : BANetwork :=
  { n := 4, k := 2, size := 2, nodes := List.range' 1 2, degrees := fun _ => 0, edges := [] }

/-- `BANetwork(4, 2)` right after `add_first_node`. -/
def baStage42 : BANetwork := baSeed42.add_first_node.toOption.getD baSeed42

/-- `baStage42` after one `add_node` with the `gIdx` oracle. -/
def baStage42' : BANetwork := (baStage42.add_node gIdx).toOption.getD baStage42

/-- `WSNetwork(3, 2, 0)` after the ring-lattice phase. -/
def wsRing320 : WSNetwork := (wsBase 3 2 0).make_ring.toOption.getD (wsBase 3 2 0)

/-- `wsRing320` after the (vacuous, since `b = 0`) rewiring pass. -/
def wsFinal320 : WSNetwork := (wsRing320.rewire gZeroQ gZeroN).toOption.getD wsRing320

/-! ## Association-list lemmas -/

theorem lookupA_map_const {a : ℕ} {l : List ℕ} {c : List (ℕ × ℚ)} (h : a ∈ l) :
    lookupA a (l.map (fun x => (x, c))) = some c := by
  induction l with
  | nil => cases h
  | cons x xs ih =>
    simp only [List.map_cons, lookupA]
    rcases List.mem_cons.mp h with h' | h'
    · simp [h']
    · by_cases hax : a = x
      · simp [hax]
      · simp [hax, ih h']

theorem lookupA_setA_eq {α : Type} {a : ℕ} {l : List (ℕ × α)} {w : α} (v : α)
    (h : lookupA a l = some w) : lookupA a (setA a v l) = some v := by
  induction l with
  | nil => simp [lookupA] at h
  | cons kv rest ih =>
    obtain ⟨k, w'⟩ := kv
    by_cases hak : a = k
    · simp [setA, lookupA, hak]
    · simp only [lookupA, if_neg hak] at h
      simp [setA, lookupA, hak, Ne.symm hak, ih h]

theorem lookupA_setA_ne {α : Type} {a b : ℕ} (v : α) (l : List (ℕ × α)) (hab : a ≠ b) :
    lookupA a (setA b v l) = lookupA a l := by
  induction l with
  | nil => simp [setA]
  | cons kv rest ih =>
    obtain ⟨k, w'⟩ := kv
    by_cases hbk : b = k
    · subst hbk
      simp [setA, lookupA, hab]
    · simp [setA, lookupA, hbk, ih]

theorem wsum_setA {a : ℕ} {l : List (ℕ × ℚ)} {w : ℚ} (v : ℚ)
    (h : lookupA a l = some w) : wsum (setA a v l) = wsum l - w + v := by
  induction l with
  | nil => simp [lookupA] at h
  | cons kv rest ih =>
    obtain ⟨k, w'⟩ := kv
    by_cases hak : a = k
    · simp only [lookupA, if_pos hak, Option.some.injEq] at h
      subst h
      simp [setA, wsum, if_pos hak]
      ring
    · simp only [lookupA, if_neg hak] at h
      have := ih h
      simp only [wsum] at this ⊢
      simp only [setA, if_neg hak, List.map_cons, List.sum_cons]
      rw [this]
      ring

theorem wsum_map_div (l : List (ℕ × ℚ)) (t : ℚ) :
    wsum (l.map (fun kv => (kv.1, kv.2 / t))) = wsum l / t := by
  induction l with
  | nil => simp [wsum]
  | cons kv rest ih =>
    simp only [wsum, List.map_cons, List.sum_cons] at ih ⊢
    rw [ih, add_div]

theorem wsum_map_pair_const (l : List ℕ) (c : ℚ) :
    wsum (l.map (fun x => (x, c))) = l.length * c := by
  induction l with
  | nil => simp [wsum]
  | cons x xs ih =>
    simp only [wsum, List.map_cons, List.sum_cons, List.length_cons] at ih ⊢
    rw [ih]
    push_cast
    ring

/-! ## C1: the out-weight normalization invariant of `Network` -/

theorem set_focus_keeps_edges {u : ℕ} {arg : FocusArg} {net net' : Network}
    (h : net.set_focus u arg = .ok net') :
    net'.node_list = net.node_list ∧ net'.edges = net.edges := by
  cases arg with
  | noArg =>
    simp only [Network.set_focus, Network.pickFocus] at h
    split at h
    · cases h
    · cases h; exact ⟨rfl, rfl⟩
  | next =>
    simp only [Network.set_focus] at h
    cases h; exact ⟨rfl, rfl⟩
  | node idt =>
    cases idt with
    | zero =>
      simp only [Network.set_focus, Network.pickFocus] at h
      split at h
      · cases h
      · cases h; exact ⟨rfl, rfl⟩
    | succ j =>
      simp only [Network.set_focus] at h
      split at h
      · cases h; exact ⟨rfl, rfl⟩
      · cases h

theorem select_keeps_edges {u : ℚ} {net net' : Network}
    (h : net.select_focus_edge u = .ok net') :
    net'.node_list = net.node_list ∧ net'.edges = net.edges := by
  unfold Network.select_focus_edge at h
  split at h
  · cases h
  · split at h
    · cases h
    · split at h
      · cases h
      · cases h; exact ⟨rfl, rfl⟩

theorem update_ok_spec {net net' : Network}
    (h : net.update_focus_weights = .ok net') :
    net'.node_list = net.node_list ∧
    ∃ f ego nf w,
      lookupA f net.edges = some ego ∧
      lookupA nf ego = some w ∧
      wsum (setA nf (w + 1 / net.n) ego) ≠ 0 ∧
      net'.edges =
        setA f
          ((setA nf (w + 1 / net.n) ego).map
            (fun kv => (kv.1, kv.2 / wsum (setA nf (w + 1 / net.n) ego))))
          net.edges := by
  unfold Network.update_focus_weights at h
  split at h
  · cases h
  next f hf =>
    split at h
    · cases h
    next ego hego =>
      split at h
      · cases h
      next nf hnf =>
        split at h
        · cases h
        next w hw =>
          split at h
          · cases h
          · dsimp only at h
            split at h
            · cases h
            next htot =>
              cases h
              exact ⟨rfl, f, ego, nf, w, hego, hw, htot, rfl⟩

/-- C1 (claims the spec makes about the WeightedDirectedGraph invariant):
for `n ≥ 1`, in a freshly constructed `Network n` every node's outgoing
edge weights sum to exactly `1`, and the property is preserved by every
successful `set_focus` / `select_focus_edge` / `step` /
`update_focus_weights` call, i.e. it holds in every reachable state. -/
theorem network_out_weights_sum_one (n : ℕ) (hn : 1 ≤ n) (net : Network)
    (h : Reachable n net) :
    ∀ node ∈ net.node_list, ∃ row, lookupA node net.edges = some row ∧ wsum row = 1 := by
  induction h with
  | init =>
    intro node hnode
    refine ⟨(List.range' 1 n).map (fun nbr => (nbr, (1 : ℚ) / n)), ?_, ?_⟩
    · exact lookupA_map_const hnode
    · rw [wsum_map_pair_const, List.length_range']
      have hn0 : (n : ℚ) ≠ 0 := Nat.cast_ne_zero.mpr (by omega)
      field_simp
  | set_focus u arg net net' _ hok ih =>
    obtain ⟨hl, he⟩ := set_focus_keeps_edges hok
    rw [hl, he]; exact ih
  | select u net net' _ hok ih =>
    obtain ⟨hl, he⟩ := select_keeps_edges hok
    rw [hl, he]; exact ih
  | step u net net' _ hok ih =>
    unfold Network.step at hok
    split at hok
    · cases hok
    next net1 hsel =>
      obtain ⟨hl1, he1⟩ := select_keeps_edges hsel
      obtain ⟨hl2, he2⟩ := set_focus_keeps_edges hok
      rw [hl2, he2, hl1, he1]; exact ih
  | update net net' _ hok ih =>
    obtain ⟨hl, f, ego, nf, w, hego, hw, htot, he⟩ := update_ok_spec hok
    rw [hl, he]
    intro node hnode
    by_cases hnf : node = f
    · subst hnf
      refine ⟨_, lookupA_setA_eq _ hego, ?_⟩
      rw [wsum_map_div, div_self htot]
    · rw [lookupA_setA_ne _ _ hnf]
      exact ih node hnode

/-- Witness for C1 at `n = 2`: in the freshly constructed network the
first node's out-weights sum to `1`. -/
theorem network_out_weights_sum_one_witness :
    ∃ row, lookupA 1 (Network.init 2).edges = some row ∧ wsum row = 1 :=
  network_out_weights_sum_one 2 (by decide) (Network.init 2) .init 1 (by decide)

/-! ## C3: `select_focus_edge` before a focus node is set -/

/-- C3: calling `select_focus_edge` on a freshly constructed network (no
focus node set) fails — but with a `KeyError` from the dict lookup
`self.edges[None]`, an arbitrary runtime exception, not with a defined
`InvalidState`-kind error as the specification requires. -/
theorem select_focus_edge_unset_is_keyerror :
    (Network.init 2).select_focus_edge 0 = .error .pyKeyError ∧
      Err.pyKeyError.isStateErr = false :=
  ⟨rfl, rfl⟩

/-! ## C9: `set_focus` -/

/-- `getD` at an in-range index returns a member of the list. -/
theorem getD_mem_of_lt {l : List ℕ} {i : ℕ} (h : i < l.length) (d : ℕ) : l.getD i d ∈ l := by
  rw [List.getD_eq_getElem l d h]
  exact List.getElem_mem h

/-- C9 amended: `set_focus` with no argument — or with the falsy id `0`,
which the `if not node:` test also sends to the random branch — picks a
random member of the node list (`IndexError` if there are no nodes);
`"next"` adopts `next_focus`; an explicit nonzero id is adopted when it is
a member and fails with the `InvalidParameter`-kind error otherwise; every
successful call resets `next_focus` and `focus_edge` to `None`. -/
theorem set_focus_spec (u : ℕ) (net : Network) (arg : FocusArg) :
    ((arg = .noArg ∨ arg = .node 0) →
      (net.node_list = [] → net.set_focus u arg = .error .pyIndexError) ∧
      (net.node_list ≠ [] →
        ∃ c, c ∈ net.node_list ∧
          net.set_focus u arg =
            .ok { net with focus_node := some c, next_focus := none, focus_edge := none })) ∧
    (arg = .next →
      net.set_focus u arg =
        .ok { net with focus_node := net.next_focus, next_focus := none, focus_edge := none }) ∧
    (∀ idt, arg = .node idt → idt ≠ 0 →
      (idt ∈ net.node_list →
        net.set_focus u arg =
          .ok { net with focus_node := some idt, next_focus := none, focus_edge := none }) ∧
      (idt ∉ net.node_list →
        net.set_focus u arg =
          .error (.invalidParameter "The specified node is not in the network."))) := by
  refine ⟨?_, ?_, ?_⟩
  · rintro (rfl | rfl) <;>
    · constructor
      · intro hnil
        simp [Network.set_focus, Network.pickFocus, hnil]
      · intro hne
        have hpos : 0 < net.node_list.length := List.length_pos.mpr hne
        have hlt : u % net.node_list.length < net.node_list.length := Nat.mod_lt _ hpos
        refine ⟨net.node_list.getD (u % net.node_list.length) 0, getD_mem_of_lt hlt 0, ?_⟩
        have h0 : ¬ net.node_list.length = 0 := by omega
        simp [Network.set_focus, Network.pickFocus, h0]
  · rintro rfl
    rfl
  · rintro idt rfl hne
    constructor
    · intro hmem
      cases idt with
      | zero => exact absurd rfl hne
      | succ j => simp [Network.set_focus, hmem]
    · intro hmem
      cases idt with
      | zero => exact absurd rfl hne
      | succ j => simp [Network.set_focus, hmem]

/-- Witness for C9 at a concrete input: `set_focus(2)` on `Network(2)`
adopts node `2` and clears the walk state. -/
theorem set_focus_spec_witness :
    (Network.init 2).set_focus 0 (.node 2) =
      .ok { Network.init 2 with focus_node := some 2, next_focus := none, focus_edge := none } :=
  ((set_focus_spec 0 (Network.init 2) (.node 2)).2.2 2 rfl (by decide)).1 (by decide)

/-- Counterexample for C9 as stated: the id `0` is not a member of the
node set of `Network(2)`, yet `set_focus(0)` does not raise
`InvalidParameter` — `if not node:` is true for `0`, so the call succeeds
and picks a random focus node (here node `1`). -/
theorem set_focus_zero_not_member_cex :
    (Network.init 2).set_focus 0 (.node 0) =
      .ok { Network.init 2 with focus_node := some 1 } ∧
    0 ∉ (Network.init 2).node_list :=
  ⟨rfl, by decide⟩

/-! ## C5: the `p` xor `m` validation of `ERNetwork` -/

theorem combos2_length (l : List ℕ) : (combos2 l).length = l.length.choose 2 := by
  induction l with
  | nil => simp [combos2]
  | cons x xs ih =>
    simp only [combos2, List.length_append, List.length_map, ih, List.length_cons]
    rw [Nat.choose_succ_succ, Nat.choose_one_right]

/-- C5 amended: the constructor guard is Python truthiness, so a *zero*
value of `p` or `m` counts as absent.  Supplying two truthy values, or no
truthy value (including `p=0` or `m=0` alone), fails with the
`InvalidParameter`-kind error; supplying exactly one truthy value
succeeds — any truthy `p`, and any truthy `m` within its valid range
`1 ≤ m ≤ C(n,2)` (so that the pool of possible pairs is nonempty). -/
theorem er_init_xor_truthiness (gP : ℕ × ℕ → ℚ) (gM : ℕ → ℕ) (n : ℕ) (p : Option ℚ)
    (m : Option ℕ) :
    (truthyQ p = truthyN m →
      ERNetwork.init gP gM n p m =
        .error (.invalidParameter "Please specify either p xor m.")) ∧
    (truthyQ p = true → truthyN m = false → 0 ≤ p.getD 0 → p.getD 0 ≤ 1 →
      ∃ net, ERNetwork.init gP gM n p m = .ok net) ∧
    (truthyQ p = false → truthyN m = true → m.getD 0 ≤ n.choose 2 →
      ∃ net, ERNetwork.init gP gM n p m = .ok net) := by
  refine ⟨?_, ?_, ?_⟩
  · intro heq
    cases hp : truthyQ p <;> cases hm : truthyN m <;>
      simp_all [ERNetwork.init]
  · intro hp hm hp0 hp1
    have hval : ¬ (p.getD 0 < 0 ∨ p.getD 0 > 1) := by
      push_neg
      exact ⟨hp0, hp1⟩
    simp only [ERNetwork.init, hp, hm, Bool.true_and, Bool.not_true, Bool.false_and,
      Bool.or_false, Bool.false_or, if_false, if_true, Bool.false_eq_true,
      ERNetwork.connect_p, hval]
    exact ⟨_, rfl⟩
  · intro hp hm hle
    have hm1 : 1 ≤ m.getD 0 := by
      cases m with
      | none => simp [truthyN] at hm
      | some x =>
        simp only [truthyN, bne_iff_ne, ne_eq] at hm
        simpa using Nat.one_le_iff_ne_zero.mpr hm
    have hpool : (combos2 (List.range' 1 n)).length ≠ 0 := by
      rw [combos2_length, List.length_range']
      omega
    simp only [ERNetwork.init, hp, hm, Bool.false_and, Bool.not_false, Bool.and_false,
      Bool.false_or, Bool.and_true, Bool.true_and, Bool.or_false, if_false, if_true,
      Bool.false_eq_true, ERNetwork.connect_m]
    have hcond : ¬ (0 < m.getD 0 ∧ (combos2 (List.range' 1 n)).length = 0) :=
      fun hc => hpool hc.2
    rw [if_neg hcond]
    exact ⟨_, rfl⟩

/-- Witness for C5's amended claim: `ERNetwork(4, p=1)` constructs
without raising. -/
theorem er_init_xor_truthiness_witness :
    ∃ net, ERNetwork.init (fun _ => 0) (fun _ => 0) 4 (some 1) none = .ok net :=
  (er_init_xor_truthiness (fun _ => 0) (fun _ => 0) 4 (some 1) none).2.1
    (by decide) rfl (by norm_num) (by norm_num)

/-- Counterexample for C5 as stated: `p = 0` is a value in the valid range
of an inclusion probability, supplied alone (with `m` absent) — yet the
constructor raises, because `not 0.0` is true in Python and the guard
treats `p=0` as unsupplied. -/
theorem er_init_p_zero_raises_cex :
    ERNetwork.init (fun _ => 1/2) (fun _ => 0) 3 (some 0) none =
      .error (.invalidParameter "Please specify either p xor m.") :=
  rfl

/-! ## `rd.sample` lemmas -/

theorem rdSampleGo_length (pick : ℕ → ℕ) :
    ∀ (j t : ℕ) (pool : List ℕ), (rdSampleGo pick t j pool).length = j := by
  intro j
  induction j with
  | zero => intro t pool; simp [rdSampleGo]
  | succ j ih => intro t pool; simp [rdSampleGo, ih]

/-- Any list is a permutation of the element at index `i` consed onto the
list with index `i` erased. -/
theorem perm_getD_cons_eraseIdx :
    ∀ (i : ℕ) (l : List ℕ), i < l.length → l.Perm (l.getD i 0 :: l.eraseIdx i) := by
  intro i
  induction i with
  | zero =>
    intro l h
    cases l with
    | nil => simp at h
    | cons x xs => simp [List.eraseIdx]
  | succ j ih =>
    intro l h
    cases l with
    | nil => simp at h
    | cons x xs =>
      simp only [List.length_cons, Nat.succ_lt_succ_iff] at h
      have hperm := ih xs h
      have h1 : (x :: xs).Perm (x :: (xs.getD j 0 :: xs.eraseIdx j)) := List.Perm.cons x hperm
      have h2 : (x :: (xs.getD j 0 :: xs.eraseIdx j)).Perm
          (xs.getD j 0 :: x :: xs.eraseIdx j) := List.Perm.swap _ _ _
      exact h1.trans h2

/-- The draws of `rd.sample` form a sub-multiset of the pool: each value
is drawn at most as often as it occurs (positions are sampled without
replacement). -/
theorem rdSampleGo_count (pick : ℕ → ℕ) :
    ∀ (j t : ℕ) (pool : List ℕ), j ≤ pool.length →
      ∀ a, (rdSampleGo pick t j pool).count a ≤ pool.count a := by
  intro j
  induction j with
  | zero => intro t pool _ a; simp [rdSampleGo]
  | succ j ih =>
    intro t pool hle a
    have hpos : 0 < pool.length := by omega
    have hi : pick t % pool.length < pool.length := Nat.mod_lt _ hpos
    have hlen : (pool.eraseIdx (pick t % pool.length)).length + 1 = pool.length :=
      List.length_eraseIdx_add_one hi
    have htail := ih (t + 1) (pool.eraseIdx (pick t % pool.length)) (by omega) a
    have hperm := perm_getD_cons_eraseIdx (pick t % pool.length) pool hi
    rw [hperm.count_eq a]
    simp only [rdSampleGo, List.count_cons]
    omega

theorem rdSampleGo_mem (pick : ℕ → ℕ) {j t : ℕ} {pool : List ℕ} (hle : j ≤ pool.length)
    {x : ℕ} (hx : x ∈ rdSampleGo pick t j pool) : x ∈ pool := by
  have h1 : 0 < (rdSampleGo pick t j pool).count x := List.count_pos_iff.mpr hx
  have h2 := rdSampleGo_count pick j t pool hle x
  exact List.count_pos_iff.mp (by omega)

/-! ## `BANetwork` counting lemmas -/

/-- Sum of the recorded degrees over the node list. -/
def degSum (net : BANetwork) : ℕ := (net.nodes.map net.degrees).sum

theorem sum_map_bump (d : ℕ → ℕ) (a : ℕ) (l : List ℕ) :
    (l.map (bump d a)).sum = (l.map d).sum + l.count a := by
  induction l with
  | nil => simp
  | cons x xs ih =>
    simp only [List.map_cons, List.sum_cons, ih, List.count_cons, bump]
    by_cases hxa : x = a
    · subst hxa; simp; omega
    · simp [hxa, Ne.symm hxa]; omega

theorem make_edges_fields (node : ℕ) :
    ∀ (targets : List ℕ) (net : BANetwork),
      (BANetwork.make_edges node targets net).n = net.n ∧
      (BANetwork.make_edges node targets net).k = net.k ∧
      (BANetwork.make_edges node targets net).size = net.size ∧
      (BANetwork.make_edges node targets net).nodes = net.nodes ∧
      (BANetwork.make_edges node targets net).edges =
        net.edges ++ targets.map (fun t => (node, t)) := by
  intro targets
  induction targets with
  | nil => intro net; simp [BANetwork.make_edges]
  | cons t ts ih =>
    intro net
    have step :
        BANetwork.make_edges node (t :: ts) net =
          BANetwork.make_edges node ts
            { net with
              edges := net.edges ++ [(node, t)]
              degrees := bump (bump net.degrees node) t } := rfl
    rw [step]
    obtain ⟨h1, h2, h3, h4, h5⟩ := ih
      { net with
        edges := net.edges ++ [(node, t)]
        degrees := bump (bump net.degrees node) t }
    refine ⟨h1, h2, h3, h4, ?_⟩
    rw [h5]
    simp

theorem make_edges_degSum (node : ℕ) :
    ∀ (targets : List ℕ) (net : BANetwork),
      node ∈ net.nodes → net.nodes.Nodup → (∀ t ∈ targets, t ∈ net.nodes) →
      degSum (BANetwork.make_edges node targets net) = degSum net + 2 * targets.length := by
  intro targets
  induction targets with
  | nil => intro net _ _ _; simp [BANetwork.make_edges, degSum]
  | cons t ts ih =>
    intro net hnode hnd hts
    have step :
        BANetwork.make_edges node (t :: ts) net =
          BANetwork.make_edges node ts
            { net with
              edges := net.edges ++ [(node, t)]
              degrees := bump (bump net.degrees node) t } := rfl
    rw [step]
    have ht : t ∈ net.nodes := hts t (List.mem_cons_self t ts)
    have hcount_node : net.nodes.count node = 1 :=
      (List.nodup_iff_count_eq_one.mp hnd) node hnode
    have hcount_t : net.nodes.count t = 1 :=
      (List.nodup_iff_count_eq_one.mp hnd) t ht
    have hrec := ih
      { net with
        edges := net.edges ++ [(node, t)]
        degrees := bump (bump net.degrees node) t }
      hnode hnd (fun x hx => hts x (List.mem_cons_of_mem t hx))
    rw [hrec]
    simp only [degSum, List.length_cons]
    rw [sum_map_bump, sum_map_bump, hcount_node, hcount_t]
    ring

/-- The bookkeeping invariant of a `BANetwork` from the moment
`add_first_node` has run: sizes, node list, edge count, degree sum, and
edge endpoints all stay in lockstep. -/
structure BAInv (n k : ℕ) (net : BANetwork) : Prop where
  hn : net.n = n
  hk : net.k = k
  hsize_lb : k < net.size
  hsize_ub : net.size ≤ n
  hnodes : net.nodes = List.range' 1 net.size
  hedlen : net.edges.length = k * (net.size - k)
  hdeg : degSum net = 2 * net.edges.length
  hend : ∀ e ∈ net.edges, e.1 ∈ net.nodes ∧ e.2 ∈ net.nodes

theorem sum_map_constN {α : Type} (c : ℕ) (l : List α) : (l.map (fun _ => c)).sum = l.length * c := by
  induction l with
  | nil => simp
  | cons x xs ih => simp [ih]; ring

/-- The node-list extension step: appending the next id keeps the
`range'` shape. -/
theorem range'_snoc (s m : ℕ) : List.range' s m ++ [s + m] = List.range' s (m + 1) := by
  rw [List.range'_concat]
  simp

/-- The common growth step shared by `add_first_node` and `add_node`:
append node `sz + 1` (with degree `0`) and run `make_edges` on it. -/
theorem grow_spec (nn kk sz : ℕ) (nodes : List ℕ) (d : ℕ → ℕ) (edges : List (ℕ × ℕ))
    (targets : List ℕ)
    (hnodes : nodes = List.range' 1 sz)
    (htmem : ∀ t ∈ targets, t ∈ nodes) :
    (BANetwork.make_edges (sz + 1) targets
      { n := nn, k := kk, size := sz + 1, nodes := nodes ++ [sz + 1],
        degrees := fun x => if x = sz + 1 then 0 else d x, edges := edges }).n = nn ∧
    (BANetwork.make_edges (sz + 1) targets
      { n := nn, k := kk, size := sz + 1, nodes := nodes ++ [sz + 1],
        degrees := fun x => if x = sz + 1 then 0 else d x, edges := edges }).k = kk ∧
    (BANetwork.make_edges (sz + 1) targets
      { n := nn, k := kk, size := sz + 1, nodes := nodes ++ [sz + 1],
        degrees := fun x => if x = sz + 1 then 0 else d x, edges := edges }).size = sz + 1 ∧
    (BANetwork.make_edges (sz + 1) targets
      { n := nn, k := kk, size := sz + 1, nodes := nodes ++ [sz + 1],
        degrees := fun x => if x = sz + 1 then 0 else d x, edges := edges }).nodes =
      List.range' 1 (sz + 1) ∧
    (BANetwork.make_edges (sz + 1) targets
      { n := nn, k := kk, size := sz + 1, nodes := nodes ++ [sz + 1],
        degrees := fun x => if x = sz + 1 then 0 else d x, edges := edges }).edges =
      edges ++ targets.map (fun t => (sz + 1, t)) ∧
    degSum (BANetwork.make_edges (sz + 1) targets
      { n := nn, k := kk, size := sz + 1, nodes := nodes ++ [sz + 1],
        degrees := fun x => if x = sz + 1 then 0 else d x, edges := edges }) =
      (nodes.map d).sum + 2 * targets.length := by
  have hnodes1 : nodes ++ [sz + 1] = List.range' 1 (sz + 1) := by
    rw [hnodes, ← range'_snoc 1 sz, Nat.add_comm 1 sz]
  obtain ⟨h1, h2, h3, h4, h5⟩ := make_edges_fields (sz + 1) targets
    { n := nn, k := kk, size := sz + 1, nodes := nodes ++ [sz + 1],
      degrees := fun x => if x = sz + 1 then 0 else d x, edges := edges }
  have hmemnode : sz + 1 ∈ nodes ++ [sz + 1] := List.mem_append_right _ (by simp)
  have hnd : (nodes ++ [sz + 1]).Nodup := by
    rw [hnodes1]
    exact List.nodup_range' 1 (sz + 1) 1 (by norm_num)
  have htmem1 : ∀ t ∈ targets, t ∈ nodes ++ [sz + 1] := by
    intro t ht
    exact List.mem_append_left _ (htmem t ht)
  have hds := make_edges_degSum (sz + 1) targets
    { n := nn, k := kk, size := sz + 1, nodes := nodes ++ [sz + 1],
      degrees := fun x => if x = sz + 1 then 0 else d x, edges := edges }
    hmemnode hnd htmem1
  refine ⟨h1, h2, h3, by rw [h4]; exact hnodes1, h5, ?_⟩
  rw [hds]
  have hmid : degSum
      { n := nn, k := kk, size := sz + 1, nodes := nodes ++ [sz + 1],
        degrees := fun x => if x = sz + 1 then 0 else d x, edges := edges } =
      (nodes.map d).sum := by
    show ((nodes ++ [sz + 1]).map (fun x => if x = sz + 1 then 0 else d x)).sum = _
    rw [List.map_append, List.sum_append]
    have hcongr : nodes.map (fun x => if x = sz + 1 then 0 else d x) = nodes.map d := by
      apply List.map_congr_left
      intro a ha
      rw [hnodes, List.mem_range'_1] at ha
      have hne : ¬ a = sz + 1 := by omega
      simp [hne]
    rw [hcongr]
    simp
  rw [hmid]

theorem add_first_node_spec (n k : ℕ) (hkn : k < n) :
    ∃ net1,
      ({ n := n, k := k, size := k, nodes := List.range' 1 k, degrees := fun _ => 0,
         edges := [] } : BANetwork).add_first_node = .ok net1 ∧
      BAInv n k net1 ∧ net1.size = k + 1 := by
  have hok :
      ({ n := n, k := k, size := k, nodes := List.range' 1 k, degrees := fun _ => 0,
         edges := [] } : BANetwork).add_first_node =
        .ok (BANetwork.make_edges (k + 1) (List.range' 1 k)
          { n := n, k := k, size := k + 1, nodes := List.range' 1 k ++ [k + 1],
            degrees := fun x => if x = k + 1 then 0 else (fun _ => 0) x, edges := [] }) := by
    unfold BANetwork.add_first_node
    rw [if_neg (by simp)]
  obtain ⟨h1, h2, h3, h4, h5, h6⟩ := grow_spec n k k (List.range' 1 k) (fun _ => 0) []
    (List.range' 1 k) rfl (fun t ht => ht)
  refine ⟨_, hok, ?_, h3⟩
  constructor
  · exact h1
  · exact h2
  · rw [h3]; omega
  · rw [h3]; omega
  · rw [h4, h3]
  · rw [h5, h3]
    simp only [List.nil_append, List.length_map, List.length_range']
    have hsub : k + 1 - k = 1 := by omega
    rw [hsub, Nat.mul_one]
  · rw [h6, h5]
    simp only [List.nil_append, List.length_map, List.length_range']
    have hzero : ((List.range' 1 k).map (fun _ => 0)).sum = 0 :=
      List.sum_eq_zero (by intro x hx; simp at hx; omega)
    rw [hzero]
    omega
  · rw [h5, h4]
    intro e he
    simp only [List.nil_append, List.mem_map] at he
    obtain ⟨t, ht, rfl⟩ := he
    rw [List.mem_range'_1] at ht
    constructor
    · show k + 1 ∈ List.range' 1 (k + 1)
      rw [List.mem_range'_1]; omega
    · show t ∈ List.range' 1 (k + 1)
      rw [List.mem_range'_1]; omega

theorem add_node_spec (g : ℕ → ℕ → ℕ) (n k : ℕ) (net : BANetwork) (hinv : BAInv n k net)
    (hk : 1 ≤ k) (hlt : net.size < net.n) :
    ∃ net', net.add_node g = .ok net' ∧ BAInv n k net' ∧ net'.size = net.size + 1 := by
  obtain ⟨hn, hkk, hlb, hub, hnodes, hedlen, hdeg, hend⟩ := hinv
  have hguard : ¬ net.size = net.k := by omega
  have hcand_len :
      (net.edges.flatMap (fun e => [e.1, e.2])).length = 2 * net.edges.length := by
    rw [List.length_flatMap]
    have hmap : net.edges.map (List.length ∘ fun (e : ℕ × ℕ) => [e.1, e.2]) =
        net.edges.map (fun _ => 2) := by
      apply List.map_congr_left
      intro e _
      simp
    rw [hmap, sum_map_constN]
    ring
  have hcand_mem : ∀ x ∈ net.edges.flatMap (fun e => [e.1, e.2]), x ∈ net.nodes := by
    intro x hx
    rw [List.mem_flatMap] at hx
    obtain ⟨e, he, hxe⟩ := hx
    obtain ⟨h1, h2⟩ := hend e he
    simp only [List.mem_cons, List.not_mem_nil, or_false] at hxe
    rcases hxe with rfl | rfl
    · exact h1
    · exact h2
  have hklen : net.k ≤ (net.edges.flatMap (fun e => [e.1, e.2])).length := by
    rw [hcand_len, hedlen, hkk]
    have h1 : 1 ≤ net.size - k := by omega
    have h2 : k * 1 ≤ k * (net.size - k) := Nat.mul_le_mul_left k h1
    omega
  have hok : net.add_node g =
      .ok (BANetwork.make_edges (net.size + 1)
        (rdSampleGo (g (net.size + 1)) 0 net.k (net.edges.flatMap (fun e => [e.1, e.2])))
        { n := net.n, k := net.k, size := net.size + 1, nodes := net.nodes ++ [net.size + 1],
          degrees := fun x => if x = net.size + 1 then 0 else net.degrees x,
          edges := net.edges }) := by
    unfold BANetwork.add_node
    rw [if_neg hguard]
    dsimp only
    rw [rdSample, if_pos hklen]
  have htlen :
      (rdSampleGo (g (net.size + 1)) 0 net.k
        (net.edges.flatMap (fun e => [e.1, e.2]))).length = net.k :=
    rdSampleGo_length _ _ _ _
  have htmem : ∀ t ∈ rdSampleGo (g (net.size + 1)) 0 net.k
      (net.edges.flatMap (fun e => [e.1, e.2])), t ∈ net.nodes :=
    fun t ht => hcand_mem t (rdSampleGo_mem _ hklen ht)
  obtain ⟨h1, h2, h3, h4, h5, h6⟩ := grow_spec net.n net.k net.size net.nodes net.degrees
    net.edges
    (rdSampleGo (g (net.size + 1)) 0 net.k (net.edges.flatMap (fun e => [e.1, e.2])))
    hnodes htmem
  refine ⟨_, hok, ?_, h3⟩
  constructor
  · rw [h1, hn]
  · rw [h2, hkk]
  · rw [h3]; omega
  · rw [h3]; omega
  · rw [h4, h3]
  · rw [h5, h3]
    rw [List.length_append, List.length_map, htlen, hedlen, hkk]
    have hs1 : net.size + 1 - k = (net.size - k) + 1 := by omega
    rw [hs1, Nat.mul_add, Nat.mul_one]
  · rw [h6, h5]
    rw [List.length_append, List.length_map, htlen]
    have hdeg1 : (net.nodes.map net.degrees).sum = 2 * net.edges.length := hdeg
    rw [hdeg1]
    ring
  · rw [h5, h4]
    intro e he
    rw [List.mem_append] at he
    rcases he with he | he
    · obtain ⟨he1, he2⟩ := hend e he
      rw [hnodes, List.mem_range'_1] at he1 he2
      constructor
      · show e.1 ∈ List.range' 1 (net.size + 1)
        rw [List.mem_range'_1]; omega
      · show e.2 ∈ List.range' 1 (net.size + 1)
        rw [List.mem_range'_1]; omega
    · rw [List.mem_map] at he
      obtain ⟨t, ht, rfl⟩ := he
      have h7 := htmem t ht
      rw [hnodes, List.mem_range'_1] at h7
      constructor
      · show net.size + 1 ∈ List.range' 1 (net.size + 1)
        rw [List.mem_range'_1]; omega
      · show t ∈ List.range' 1 (net.size + 1)
        rw [List.mem_range'_1]; omega

theorem make_network_spec (g : ℕ → ℕ → ℕ) (n k : ℕ) (hk : 1 ≤ k) :
    ∀ (fuel : ℕ) (net : BANetwork), BAInv n k net → net.n - net.size ≤ fuel →
      ∃ net', BANetwork.make_network g fuel net = .ok net' ∧ BAInv n k net' ∧
        net'.size = n := by
  intro fuel
  induction fuel with
  | zero =>
    intro net hinv hf
    have hsize : net.size = n := by
      have := hinv.hsize_ub
      have := hinv.hn
      omega
    exact ⟨net, rfl, hinv, hsize⟩
  | succ fuel ih =>
    intro net hinv hf
    by_cases hlt : net.size < net.n
    · obtain ⟨net2, hok, hinv2, hsize2⟩ := add_node_spec g n k net hinv hk hlt
      obtain ⟨net', hok', hinv', hsize'⟩ := ih net2 hinv2 (by
        have h1 := hinv.hn
        have h2 := hinv2.hn
        have h3 := hsize2
        omega)
      refine ⟨net', ?_, hinv', hsize'⟩
      simp only [BANetwork.make_network, if_pos hlt, hok]
      exact hok'
    · have hsize : net.size = n := by
        have := hinv.hsize_ub
        have := hinv.hn
        omega
      refine ⟨net, ?_, hinv, hsize⟩
      simp [BANetwork.make_network, hlt]

/-- C2: for `1 ≤ k < n`, `BANetwork(n, k)` constructs successfully (for
every sampling oracle) with exactly `n` nodes, exactly `k*(n-k)` recorded
edges, and degrees summing to `2*k*(n-k)`. -/
theorem ba_construction_counts (g : ℕ → ℕ → ℕ) (n k : ℕ) (hk : 1 ≤ k) (hkn : k < n) :
    ∃ net, BANetwork.init g n k = .ok net ∧
      net.nodes.length = n ∧
      net.edges.length = k * (n - k) ∧
      degSum net = 2 * (k * (n - k)) := by
  obtain ⟨net1, hok1, hinv1, hsize1⟩ := add_first_node_spec n k hkn
  obtain ⟨net', hok', hinv', hsize'⟩ :=
    make_network_spec g n k hk (net1.n - net1.size) net1 hinv1 le_rfl
  refine ⟨net', ?_, ?_, ?_, ?_⟩
  · simp only [BANetwork.init, hok1]
    exact hok'
  · rw [hinv'.hnodes, List.length_range', hsize']
  · rw [hinv'.hedlen, hsize']
  · rw [hinv'.hdeg, hinv'.hedlen, hsize']

/-- Witness for C2 at `n = 5`, `k = 2` with the identity index oracle. -/
theorem ba_construction_counts_witness :
    ∃ net, BANetwork.init gIdx 5 2 = .ok net ∧
      net.nodes.length = 5 ∧
      net.edges.length = 2 * (5 - 2) ∧
      degSum net = 2 * (2 * (5 - 2)) :=
  ba_construction_counts gIdx 5 2 (by omega) (by omega)

/-- C4 amended: each `add_node` draws its `k` targets from the multiset of
existing edge endpoints without positional replacement — every value is
drawn at most as often as it has endpoints (`count` bound) — and records
the edges `(new node, target)` in draw order.  Distinctness of the target
*nodes* is not guaranteed (see the counterexample below). -/
theorem ba_add_node_targets (g : ℕ → ℕ → ℕ) (net net' : BANetwork)
    (h : net.add_node g = .ok net') :
    ∃ targets : List ℕ,
      targets.length = net.k ∧
      (∀ a, targets.count a ≤ (net.edges.flatMap (fun e => [e.1, e.2])).count a) ∧
      net'.edges = net.edges ++ targets.map (fun t => (net.size + 1, t)) := by
  unfold BANetwork.add_node at h
  by_cases hguard : net.size = net.k
  · rw [if_pos hguard] at h
    cases h
  · rw [if_neg hguard] at h
    dsimp only at h
    by_cases hle : net.k ≤ (net.edges.flatMap (fun e => [e.1, e.2])).length
    · rw [rdSample, if_pos hle] at h
      dsimp only at h
      cases h
      obtain ⟨_, _, _, _, h5⟩ := make_edges_fields (net.size + 1)
        (rdSampleGo (g (net.size + 1)) 0 net.k (net.edges.flatMap (fun e => [e.1, e.2])))
        { net with
          size := net.size + 1
          nodes := net.nodes ++ [net.size + 1]
          degrees := fun x => if x = net.size + 1 then 0 else net.degrees x }
      refine ⟨_, rdSampleGo_length _ _ _ _, ?_, h5⟩
      intro a
      exact rdSampleGo_count _ _ _ _ hle a
    · rw [rdSample, if_neg hle] at h
      dsimp only at h
      cases h

/-- Witness for C4's amended claim: the second growth step of
`BANetwork(4, 2)` under the `gIdx` oracle. -/
theorem ba_add_node_targets_witness :
    ∃ targets : List ℕ,
      targets.length = baStage42.k ∧
      (∀ a, targets.count a ≤
        (baStage42.edges.flatMap (fun e => [e.1, e.2])).count a) ∧
      baStage42'.edges = baStage42.edges ++ targets.map (fun t => (baStage42.size + 1, t)) :=
  ba_add_node_targets gIdx baStage42 baStage42' rfl

/-- Counterexample for C4 as stated: growing `BANetwork(4, 2)` with the
`gIdx` oracle connects the new node `4` to node `3` twice — the sample is
taken without positional replacement from `[3, 1, 3, 2]`, in which node
`3` occurs once per endpoint it owns, so the two draws can both hit `3`. -/
theorem ba_duplicate_target_cex :
    (BANetwork.init gIdx 4 2).toOption.map (fun net => net.edges.count (4, 3)) = some 2 := by
  rfl

/-! ## Monadic fold lemmas for `Except` -/

/-- A property preserved by every successful step of a `foldlM` over
`Except` is preserved by the whole fold. -/
theorem foldlM_except_pres {σ α : Type} (f : σ → α → Except Err σ) (P : σ → Prop)
    (hstep : ∀ s a s', f s a = .ok s' → P s → P s') :
    ∀ (l : List α) (s s' : σ), l.foldlM f s = .ok s' → P s → P s' := by
  intro l
  induction l with
  | nil =>
    intro s s' h hP
    rw [List.foldlM_nil] at h
    cases h
    exact hP
  | cons a l ih =>
    intro s s' h hP
    rw [List.foldlM_cons] at h
    cases hfa : f s a with
    | error e => rw [hfa] at h; cases h
    | ok s1 =>
      rw [hfa] at h
      exact ih s1 s' h (hstep s a s1 hfa hP)

/-- A `foldlM` over `Except` whose every step succeeds and preserves `P`
succeeds and preserves `P`. -/
theorem foldlM_except_ok {σ α : Type} (f : σ → α → Except Err σ) (P : σ → Prop) :
    ∀ (l : List α), (∀ s a, a ∈ l → P s → ∃ s', f s a = .ok s' ∧ P s') →
      ∀ s, P s → ∃ s', l.foldlM f s = .ok s' ∧ P s' := by
  intro l
  induction l with
  | nil =>
    intro _ s hP
    exact ⟨s, rfl, hP⟩
  | cons a l ih =>
    intro hstep s hP
    obtain ⟨s1, hfa, hP1⟩ := hstep s a (List.mem_cons_self a l) hP
    obtain ⟨s', hfold, hP'⟩ := ih (fun s a ha hPs => hstep s a (List.mem_cons_of_mem _ ha) hPs) s1 hP1
    refine ⟨s', ?_, hP'⟩
    rw [List.foldlM_cons, hfa]
    exact hfold

theorem length_erase_of_mem_d {α : Type} [DecidableEq α] {a : α} {l : List α} (h : a ∈ l) :
    (l.erase a).length = l.length - 1 := List.length_erase_of_mem h

theorem pyRemove_ok {α : Type} [DecidableEq α] {a : α} {l l' : List α}
    (h : pyRemove a l = .ok l') : a ∈ l ∧ l' = l.erase a := by
  unfold pyRemove at h
  split at h
  · cases h
    exact ⟨by assumption, rfl⟩
  · cases h

/-! ## C6: rewiring preserves the edge count -/

theorem find_new_neighbor_edges_len {uC i j : ℕ} {st st' : WSNetwork}
    (h : st.find_new_neighbor uC i j = .ok st') : st'.edges.length = st.edges.length := by
  unfold WSNetwork.find_new_neighbor at h
  dsimp only at h
  split at h
  · cases h
  next hopt =>
    cases hn1 : pyRemove j (st.neighbors i) with
    | error e => rw [hn1] at h; cases h
    | ok nbrs1 =>
      rw [hn1] at h
      cases he1 : pyRemove (i, j) st.edges with
      | error e => rw [he1] at h; cases h
      | ok edges1 =>
        rw [he1] at h
        cases h
        obtain ⟨hmem, hrm⟩ := pyRemove_ok he1
        have hlen : edges1.length = st.edges.length - 1 := by
          rw [hrm]
          exact length_erase_of_mem_d hmem
        have hpos : 1 ≤ st.edges.length := List.length_pos.mpr (List.ne_nil_of_mem hmem)
        show (edges1 ++ [(i, _)]).length = st.edges.length
        rw [List.length_append, hlen]
        simp
        omega

theorem rewireInner_edges_len {gB : ℕ → ℕ → ℚ} {gC : ℕ → ℕ → ℕ} {b : ℚ} {node j : ℕ}
    {st st' : WSNetwork} (h : rewireInner gB gC b node st j = .ok st') :
    st'.edges.length = st.edges.length := by
  unfold rewireInner at h
  split at h
  · exact find_new_neighbor_edges_len h
  · cases h
    rfl

theorem rewireNode_edges_len {gB : ℕ → ℕ → ℚ} {gC : ℕ → ℕ → ℕ} {b : ℚ} {node : ℕ}
    {st st' : WSNetwork} (h : rewireNode gB gC b st node = .ok st') :
    st'.edges.length = st.edges.length := by
  unfold rewireNode at h
  dsimp only at h
  cases hfold : ((st.neighbors node).filter (fun nbr => node < nbr)).foldlM
      (rewireInner gB gC b node) st with
  | error e => rw [hfold] at h; cases h
  | ok st2 =>
    rw [hfold] at h
    cases h
    show st2.edges.length = st.edges.length
    exact foldlM_except_pres (rewireInner gB gC b node)
      (fun s => s.edges.length = st.edges.length)
      (fun s a s' hstep hP => (rewireInner_edges_len hstep).trans hP)
      _ st st2 hfold rfl

/-- C6: in every successfully constructed `WSNetwork`, the rewiring phase
does not change the number of entries in the edge list: every successful
rewiring removes exactly one edge `(i, j)` and appends exactly one edge
`(i, new)`, so the edge count after `rewire` equals the edge count after
`make_ring`. -/
theorem ws_rewire_edge_count (gB : ℕ → ℕ → ℚ) (gC : ℕ → ℕ → ℕ)
    (st0 st st' : WSNetwork) (hring : st0.make_ring = .ok st)
    (h : st.rewire gB gC = .ok st') : st'.edges.length = st.edges.length := by
  unfold WSNetwork.rewire at h
  cases hfold : st.nodes.foldlM (rewireNode gB gC st.b) st with
  | error e => rw [hfold] at h; cases h
  | ok st2 =>
    rw [hfold] at h
    cases h
    have h2 : st2.edges.length = st.edges.length :=
      foldlM_except_pres (rewireNode gB gC st.b)
        (fun s => s.edges.length = st.edges.length)
        (fun s a s' hstep hP => (rewireNode_edges_len hstep).trans hP)
        _ st st2 hfold rfl
    show (st2.edges.mergeSort (fun a c => a.1 ≤ c.1)).length = st.edges.length
    rw [(List.mergeSort_perm st2.edges _).length_eq]
    exact h2

/-- Witness for C6: the concrete `WSNetwork(3, 2, 0)` construction. -/
theorem ws_rewire_edge_count_witness : wsFinal320.edges.length = wsRing320.edges.length :=
  ws_rewire_edge_count gZeroQ gZeroN (wsBase 3 2 0) wsRing320 wsFinal320 rfl rfl

/-! ## The ring-lattice phase: slice lemmas and closed form -/

theorem make_ring_eq_fold (n k : ℕ) (b : ℚ) :
    (wsBase n k b).make_ring =
      (List.range' 1 n).foldlM (ringStep (ringPadded n k) k) (wsBase n k b) := rfl

theorem ringPadded_length_ge (n k : ℕ) (hk : k % 2 = 0) (hkn : k < n) :
    n + k ≤ (ringPadded n k).length := by
  unfold ringPadded
  by_cases h0 : k / 2 = 0
  · simp only [h0, if_true, List.length_append, List.length_range', List.length_take,
      List.length_drop]
    omega
  · simp only [h0, if_false, List.length_append, List.length_range', List.length_take,
      List.length_drop]
    omega

theorem ringSlice_length (n k node : ℕ) (hk : k % 2 = 0) (hkn : k < n) (h2 : node ≤ n) :
    (((ringPadded n k).drop (node - 1)).take (k + 1)).length = k + 1 := by
  rw [List.length_take, List.length_drop]
  have := ringPadded_length_ge n k hk hkn
  omega

theorem ringPadded_getElem (n k node : ℕ) (hk : k % 2 = 0) (hkn : k < n)
    (h1 : 1 ≤ node) (h2 : node ≤ n) (hidx : node - 1 + k / 2 < (ringPadded n k).length) :
    (ringPadded n k)[node - 1 + k / 2] = node := by
  unfold ringPadded
  by_cases h0 : k / 2 = 0
  · have hk0 : k = 0 := by omega
    subst hk0
    simp only [h0, if_true]
    rw [List.getElem_append_left (by simp; omega), List.getElem_append_left (by simp; omega),
      List.getElem_range']
    omega
  · simp only [h0, if_false]
    have hdl : ((List.range' 1 n).drop ((List.range' 1 n).length - k / 2)).length = k / 2 := by
      rw [List.length_drop, List.length_range']
      omega
    have hstep1 : node - 1 + k / 2 <
        (((List.range' 1 n).drop ((List.range' 1 n).length - k / 2)) ++ List.range' 1 n).length := by
      rw [List.length_append, hdl, List.length_range']
      omega
    rw [List.getElem_append_left hstep1, List.getElem_append_right (by rw [hdl]; omega),
      List.getElem_range']
    rw [hdl]
    omega

theorem ringSlice_mem (n k node : ℕ) (hk : k % 2 = 0) (hkn : k < n)
    (h1 : 1 ≤ node) (h2 : node ≤ n) :
    node ∈ ((ringPadded n k).drop (node - 1)).take (k + 1) := by
  have hslen := ringSlice_length n k node hk hkn h2
  have hplen := ringPadded_length_ge n k hk hkn
  have hidx : k / 2 < (((ringPadded n k).drop (node - 1)).take (k + 1)).length := by
    rw [hslen]
    omega
  have hidx2 : node - 1 + k / 2 < (ringPadded n k).length := by omega
  have hval : (((ringPadded n k).drop (node - 1)).take (k + 1))[k / 2] = node := by
    rw [List.getElem_take, List.getElem_drop]
    exact ringPadded_getElem n k node hk hkn h1 h2 hidx2
  have hm := List.getElem_mem hidx
  rw [hval] at hm
  exact hm

theorem ringNbrs_length (n k node : ℕ) (hk : k % 2 = 0) (hkn : k < n)
    (h1 : 1 ≤ node) (h2 : node ≤ n) : (ringNbrs n k node).length = k := by
  unfold ringNbrs
  rw [length_erase_of_mem_d (ringSlice_mem n k node hk hkn h1 h2),
    ringSlice_length n k node hk hkn h2]
  omega

/-- The closed form of the `make_ring` fold: every processed node gets its
window-derived neighbor list and contributes its `(node, nbr)` pairs to
the edge list, in order. -/
theorem ring_fold_spec (n k : ℕ) :
    ∀ (l : List ℕ) (st : WSNetwork)
      (hmem : ∀ node ∈ l, node ∈ ((ringPadded n k).drop (node - 1)).take (k + 1)),
      ∃ st', l.foldlM (ringStep (ringPadded n k) k) st = .ok st' ∧
        st'.n = st.n ∧ st'.k = st.k ∧ st'.b = st.b ∧ st'.nodes = st.nodes ∧
        st'.edges = st.edges ++
          l.flatMap (fun node => (ringNbrs n k node).map (fun nbr => (node, nbr))) ∧
        ∀ x, st'.neighbors x = if x ∈ l then ringNbrs n k x else st.neighbors x := by
  intro l
  induction l with
  | nil =>
    intro st _
    refine ⟨st, rfl, rfl, rfl, rfl, rfl, by simp, ?_⟩
    intro x
    simp
  | cons node l ih =>
    intro st hmem
    have hnode := hmem node (List.mem_cons_self node l)
    have hstep : ringStep (ringPadded n k) k st node = .ok
        { st with
          edges := st.edges ++ (ringNbrs n k node).map (fun nbr => (node, nbr))
          neighbors := fun x => if x = node then ringNbrs n k node else st.neighbors x } := by
      have hpy : pyRemove node (((ringPadded n k).drop (node - 1)).take (k + 1)) =
          .ok (ringNbrs n k node) := by
        unfold pyRemove ringNbrs
        rw [if_pos hnode]
      unfold ringStep
      rw [hpy]
      rfl
    obtain ⟨st', hfold, hn, hk2, hb, hnodes, hedges, hnbrs⟩ := ih
      { st with
        edges := st.edges ++ (ringNbrs n k node).map (fun nbr => (node, nbr))
        neighbors := fun x => if x = node then ringNbrs n k node else st.neighbors x }
      (fun x hx => hmem x (List.mem_cons_of_mem _ hx))
    refine ⟨st', ?_, hn, hk2, hb, hnodes, ?_, ?_⟩
    · rw [List.foldlM_cons, hstep]
      exact hfold
    · rw [hedges]
      show st.edges ++ _ ++ _ = st.edges ++ _
      rw [List.flatMap_cons, List.append_assoc]
    · intro x
      rw [hnbrs x]
      by_cases hx : x ∈ l
      · simp [hx]
      · by_cases hxn : x = node
        · subst hxn
          simp [hx]
        · simp [hx, hxn]

/-- The closed form of `make_ring` on the freshly validated base state. -/
theorem make_ring_spec (n k : ℕ) (b : ℚ) (hk : k % 2 = 0) (hkn : k < n) :
    ∃ stR, (wsBase n k b).make_ring = .ok stR ∧
      stR.n = n ∧ stR.k = k ∧ stR.b = b ∧ stR.nodes = List.range' 1 n ∧
      stR.edges = (List.range' 1 n).flatMap
        (fun node => (ringNbrs n k node).map (fun nbr => (node, nbr))) ∧
      ∀ x, stR.neighbors x = if x ∈ List.range' 1 n then ringNbrs n k x else [] := by
  obtain ⟨stR, hfold, hn, hk2, hb, hnodes, hedges, hnbrs⟩ :=
    ring_fold_spec n k (List.range' 1 n) (wsBase n k b) (by
      intro node hnode
      rw [List.mem_range'_1] at hnode
      exact ringSlice_mem n k node hk hkn (by omega) (by omega))
  refine ⟨stR, ?_, hn, hk2, hb, hnodes, by simpa using hedges, hnbrs⟩
  rw [make_ring_eq_fold]
  exact hfold

theorem flatMap_congr_mem {α β : Type} :
    ∀ (l : List α) (f g : α → List β), (∀ a ∈ l, f a = g a) → l.flatMap f = l.flatMap g := by
  intro l
  induction l with
  | nil => intro f g _; rfl
  | cons a l ih =>
    intro f g h
    rw [List.flatMap_cons, List.flatMap_cons, h a (List.mem_cons_self a l),
      ih f g (fun x hx => h x (List.mem_cons_of_mem _ hx))]

/-! ## C8: the ring-lattice phase (amended) and its counterexample -/

/-- C8 amended: after the ring-lattice phase every node's neighbor list has
length exactly `k`, and the edge list is the concatenation, over the
nodes, of that node's `(node, nbr)` pairs — i.e. each undirected
connection is recorded once *per endpoint* (in both orientations), for a
total of `n * k` entries, not once per node pair. -/
theorem ws_ring_degree_and_incidence (n k : ℕ) (b : ℚ) (hk : k % 2 = 0) (hkn : k < n) :
    ∃ stR, (wsBase n k b).make_ring = .ok stR ∧
      (∀ node ∈ stR.nodes, (stR.neighbors node).length = k) ∧
      stR.edges =
        stR.nodes.flatMap (fun node => (stR.neighbors node).map (fun nbr => (node, nbr))) ∧
      stR.edges.length = n * k := by
  obtain ⟨stR, hring, hn, hk2, hb, hnodes, hedges, hnbrs⟩ := make_ring_spec n k b hk hkn
  have hdeg : ∀ node ∈ stR.nodes, (stR.neighbors node).length = k := by
    intro node hnode
    rw [hnodes, List.mem_range'_1] at hnode
    rw [hnbrs node, if_pos (by rw [List.mem_range'_1]; omega)]
    exact ringNbrs_length n k node hk hkn (by omega) (by omega)
  refine ⟨stR, hring, hdeg, ?_, ?_⟩
  · rw [hedges, hnodes]
    apply flatMap_congr_mem
    intro node hnode
    rw [hnbrs node, if_pos hnode]
  · rw [hedges, List.length_flatMap]
    have hmap : (List.range' 1 n).map
        (List.length ∘ fun node => (ringNbrs n k node).map (fun nbr => (node, nbr))) =
        (List.range' 1 n).map (fun _ => k) := by
      apply List.map_congr_left
      intro node hnode
      rw [List.mem_range'_1] at hnode
      show ((ringNbrs n k node).map _).length = k
      rw [List.length_map]
      exact ringNbrs_length n k node hk hkn (by omega) (by omega)
    rw [hmap, sum_map_constN, List.length_range']

/-- Witness for C8's amended claim at `n = 3`, `k = 2`. -/
theorem ws_ring_degree_and_incidence_witness :
    ∃ stR, (wsBase 3 2 0).make_ring = .ok stR ∧
      (∀ node ∈ stR.nodes, (stR.neighbors node).length = 2) ∧
      stR.edges =
        stR.nodes.flatMap (fun node => (stR.neighbors node).map (fun nbr => (node, nbr))) ∧
      stR.edges.length = 3 * 2 :=
  ws_ring_degree_and_incidence 3 2 0 rfl (by omega)

/-- Counterexample for C8 as stated: in the ring lattice of
`WSNetwork(3, 2, _)` the undirected connection `{1, 2}` is recorded twice,
once in each orientation — the edge list is not "once per node pair in a
consistent direction". -/
theorem ws_ring_both_orientations_cex :
    (1, 2) ∈ wsRing320.edges ∧ (2, 1) ∈ wsRing320.edges := by
  decide

/-! ## C7: `b = 0` never rewires -/

theorem foldlM_except_fix {σ α : Type} (f : σ → α → Except Err σ) :
    ∀ (l : List α) (s : σ), (∀ a ∈ l, f s a = .ok s) → l.foldlM f s = .ok s := by
  intro l
  induction l with
  | nil => intro s _; rfl
  | cons a l ih =>
    intro s hstep
    rw [List.foldlM_cons, hstep a (List.mem_cons_self a l)]
    exact ih s (fun x hx => hstep x (List.mem_cons_of_mem _ hx))

theorem rewireNode_b0 (gB : ℕ → ℕ → ℚ) (gC : ℕ → ℕ → ℕ) (st : WSNetwork) (node : ℕ)
    (hg : ∀ a c, 0 ≤ gB a c) :
    rewireNode gB gC 0 st node = .ok
      { st with neighbors := fun x =>
          if x = node then (st.neighbors node).mergeSort (fun a c => a ≤ c)
          else st.neighbors x } := by
  have hcoin : ∀ j, pyCoin 0 (gB node j) = false := fun j =>
    decide_eq_false (not_lt.mpr (hg node j))
  have hfold : ((st.neighbors node).filter (fun nbr => node < nbr)).foldlM
      (rewireInner gB gC 0 node) st = .ok st := by
    apply foldlM_except_fix
    intro j _
    unfold rewireInner
    rw [hcoin j]
    simp
  unfold rewireNode
  dsimp only
  rw [hfold]
  rfl

theorem rewire_b0_spec (gB : ℕ → ℕ → ℚ) (gC : ℕ → ℕ → ℕ) (st : WSNetwork)
    (hb : st.b = 0) (hg : ∀ a c, 0 ≤ gB a c) :
    ∃ st', st.rewire gB gC = .ok st' ∧ st'.edges.Perm st.edges ∧
      st'.nodes = st.nodes ∧
      ∀ x, (st'.neighbors x).length = (st.neighbors x).length := by
  obtain ⟨st2, hfold, hPe, hPn, hPl⟩ := foldlM_except_ok (rewireNode gB gC 0)
    (fun s => s.edges = st.edges ∧ s.nodes = st.nodes ∧
      ∀ x, (s.neighbors x).length = (st.neighbors x).length)
    st.nodes
    (by
      intro s node _ hP
      obtain ⟨hPe, hPn, hPl⟩ := hP
      refine ⟨_, rewireNode_b0 gB gC s node hg, hPe, hPn, ?_⟩
      intro x
      show (if x = node then (s.neighbors node).mergeSort (fun a c => a ≤ c)
        else s.neighbors x).length = _
      by_cases hx : x = node
      · rw [if_pos hx, (List.mergeSort_perm _ _).length_eq, hx]
        exact hPl node
      · rw [if_neg hx]
        exact hPl x)
    st ⟨rfl, rfl, fun _ => rfl⟩
  refine ⟨{ st2 with edges := st2.edges.mergeSort (fun a c => a.1 ≤ c.1) }, ?_, ?_, hPn, hPl⟩
  · unfold WSNetwork.rewire
    rw [hb, hfold]
    rfl
  · show (st2.edges.mergeSort (fun a c => a.1 ≤ c.1)).Perm st.edges
    exact (List.mergeSort_perm st2.edges (fun a c => a.1 ≤ c.1)).trans
      (by rw [hPe])

/-- C7: constructing `WSNetwork(n, k, 0)` (for any valid random source,
i.e. nonnegative coin oracle values) performs no rewiring — the final edge
list is a permutation (the final stable re-sorting) of exactly the
ring-lattice edge list, and every node's neighbor list still has length
exactly `k`. -/
theorem ws_b0_keeps_ring (n k : ℕ) (gB : ℕ → ℕ → ℚ) (gC : ℕ → ℕ → ℕ)
    (hk : k % 2 = 0) (hkn : k < n) (hg : ∀ a c, 0 ≤ gB a c) :
    ∃ stR net, (wsBase n k 0).make_ring = .ok stR ∧
      WSNetwork.init gB gC n k 0 = .ok net ∧
      net.edges.Perm stR.edges ∧
      net.nodes = stR.nodes ∧
      ∀ node ∈ net.nodes, (net.neighbors node).length = k := by
  obtain ⟨stR, hring, hn, hk2, hb, hnodes, hedges, hnbrs⟩ := make_ring_spec n k 0 hk hkn
  obtain ⟨net, hrew, hperm, hrnodes, hrlen⟩ := rewire_b0_spec gB gC stR hb hg
  refine ⟨stR, net, hring, ?_, hperm, hrnodes, ?_⟩
  · unfold WSNetwork.init
    rw [if_neg (by omega), if_neg (by norm_num), if_neg (by omega), hring]
    exact hrew
  · intro node hnode
    rw [hrnodes, hnodes] at hnode
    rw [hrlen node, hnbrs node, if_pos hnode]
    rw [List.mem_range'_1] at hnode
    exact ringNbrs_length n k node hk hkn (by omega) (by omega)

/-- Witness for C7 at `n = 3`, `k = 2` with the all-zero oracles. -/
theorem ws_b0_keeps_ring_witness :
    ∃ stR net, (wsBase 3 2 0).make_ring = .ok stR ∧
      WSNetwork.init gZeroQ gZeroN 3 2 0 = .ok net ∧
      net.edges.Perm stR.edges ∧
      net.nodes = stR.nodes ∧
      ∀ node ∈ net.nodes, (net.neighbors node).length = 2 :=
  ws_b0_keeps_ring 3 2 gZeroQ gZeroN rfl (by omega) (fun a c => le_refl 0)

/-! ## C10: the rewiring phase can crash with an unhandled `IndexError` -/

/-- C10: for the valid parameters `n = 3`, `k = 2`, `b = 1` (the failing
family is `n = k + 1`, where each node's ring neighbors are all other
nodes), the first rewiring attempt finds every node already adjacent or
equal to node `1`, so `rd.choice` is called on an empty list and
construction fails with an unhandled `IndexError` — which is neither an
`InvalidParameter`- nor an `InvalidState`-kind error. -/
theorem ws_rewire_empty_options_crash :
    WSNetwork.init gZeroQ gZeroN 3 2 1 = .error .pyIndexError ∧
      Err.pyIndexError.isParamErr = false ∧ Err.pyIndexError.isStateErr = false :=
  ⟨rfl, rfl, rfl⟩



end DLC
